import Mathlib

/-!
Verification of the path-algebra core of `theatre/shared/src/utils/addresses.ts`.

A `PathToProp` is an ordered sequence of steps, each a string field name or a
numeric array index (`Array<string | number>` in the source).  JavaScript
numbers used as path steps are modelled as integers (`Int`): the claims under
study only concern finite, JSON-representable numbers, and every operation in
the source treats a numeric step as an array index.  Strict equality `===`
between steps is modelled by equality of the `PathStep` inductive, which keeps
the string/number distinction (`"1"` is never equal to `1`).
-/

/-- One step of a path: a string field name or a numeric array index
(`string | number` in the source). -/
inductive PathStep where
  | str (s : String)
  | num (n : Int)
deriving DecidableEq

/-- `PathToProp = Array<string | number>`. -/
abbrev PathToProp := List PathStep

/-- `doesPathStartWith(path, pathPrefix)` from addresses.ts:
`pathPrefix.every((pathPart, i) => pathPart === path[i])`.
Each index `i` of `pathPrefix` is compared against `path[i]`; reading past the
end of `path` yields `undefined`, which is `===`-unequal to any defined step,
so the comparison is `pathPrefix.get? i == path.get? i` (the left side is
always `some` for `i < pathPrefix.length`). -/
def doesPathStartWith (path pathPrefix : PathToProp) : Bool :=
  (List.range pathPrefix.length).all
    (fun i => pathPrefix.get? i == path.get? i)

/-- `arePathsEqual(pathToPropA, pathToPropB)` from addresses.ts: false when the
lengths differ, otherwise an indexwise `===` scan. -/
def arePathsEqual (pathToPropA pathToPropB : PathToProp) : Bool :=
  if pathToPropA.length ≠ pathToPropB.length then false
  else (List.range pathToPropA.length).all
    (fun i => pathToPropA.get? i == pathToPropB.get? i)

/-- The body of the `while (true)` loop of `commonRootOfPathsToProps`.  At
iteration entry `i = commonPathToProp.length`; the candidate step is
`pathsToProps[0]?.[i]` (`undefined` when there is no first path or the first
path is exhausted, in which case the accumulator is returned); then every path
must have a `===`-equal step at index `i`, otherwise the accumulator is
returned.  The loop terminates because each iteration grows the accumulator by
one and stops once the first path is exhausted, so any `fuel` exceeding the
first path's length is enough; `commonRootOfPathsToProps` below supplies it. -/
def commonRootGo (pathsToProps : List PathToProp) (fuel : Nat)
    (commonPathToProp : PathToProp) : PathToProp :=
  match fuel with
  | 0 => commonPathToProp
  | fuel + 1 =>
    match (pathsToProps.get? 0).bind (fun f => f.get? commonPathToProp.length) with
    | none => commonPathToProp
    | some candidatePathPart =>
      if pathsToProps.all
          (fun pathToProp =>
            pathToProp.get? commonPathToProp.length == some candidatePathPart) then
        commonRootGo pathsToProps fuel (commonPathToProp ++ [candidatePathPart])
      else commonPathToProp

/-- `commonRootOfPathsToProps(pathsToProps)` from addresses.ts. -/
def commonRootOfPathsToProps (pathsToProps : List PathToProp) : PathToProp :=
  commonRootGo pathsToProps ((pathsToProps.headD []).length + 1) []

/-- A serializable value (`SerializableValue` in the source's type universe):
`null`, a primitive (boolean, number or string), an array, or a string-keyed
map.  `typeof v === 'object' && v !== null` holds exactly for the `varr` and
`vobj` constructors. -/
inductive SerializableValue where
  | vnull
  | vbool (b : Bool)
  | vnum (n : Int)
  | vstr (s : String)
  | varr (items : List SerializableValue)
  | vobj (fields : List (String × SerializableValue))

/-- JavaScript property read `cur[key]` on a plain object: the value at the
key, or `undefined` (`none`) when the key is absent. -/
def lookupField (fields : List (String × SerializableValue)) (key : String) :
    Option SerializableValue :=
  match fields with
  | [] => none
  | (k, v) :: rest => if k = key then some v else lookupField rest key

/-- JavaScript element read `cur[key]` on an array with a number key:
the element at that index, or `undefined` (`none`) when the index is negative
or past the end. -/
def arrIndex (items : List SerializableValue) (n : Int) :
    Option SerializableValue :=
  if n < 0 then none else items.get? n.toNat

/-- The `while (p.length !== 0)` loop of `getValueByPropPath`.  `cur` is the
running value; `none` models the JavaScript `undefined` (which can arise
mid-walk from an out-of-range index or a missing key).  With steps remaining:
a non-null object that is an array accepts only a number step, a non-array
object accepts only a string step, and anything else (null, a primitive, or
`undefined`) returns `undefined` at once. -/
def walkPath (p : PathToProp) (cur : Option SerializableValue) :
    Option SerializableValue :=
  match p with
  | [] => cur
  | key :: rest =>
    match cur with
    | some (.varr items) =>
      match key with
      | .num n => walkPath rest (arrIndex items n)
      | .str _ => none
    | some (.vobj fields) =>
      match key with
      | .str s => walkPath rest (lookupField fields s)
      | .num _ => none
    | _ => none

/-- `getValueByPropPath(pathToProp, rootVal)` from addresses.ts.  The source
copies the path (`[...pathToProp]`) and shifts steps off the copy, so the walk
is pure; the runtime places no constraint on `rootVal` (its `SerializableMap`
annotation is not enforced), so the model takes any serializable value. -/
def getValueByPropPath (pathToProp : PathToProp)
    (rootVal : SerializableValue) : Option SerializableValue :=
  walkPath pathToProp (some rootVal)

/-- Fuel-indexed variant of `walkPath`, used to state that the loop of
`getValueByPropPath` terminates after at most one iteration per path step:
`none` here means the fuel ran out before the walk finished. -/
def walkPathFuel (fuel : Nat) (p : PathToProp)
    (cur : Option SerializableValue) : Option (Option SerializableValue) :=
  match p with
  | [] => some cur
  | key :: rest =>
    match fuel with
    | 0 => none
    | fuel + 1 =>
      match cur with
      | some (.varr items) =>
        match key with
        | .num n => walkPathFuel fuel rest (arrIndex items n)
        | .str _ => some none
      | some (.vobj fields) =>
        match key with
        | .str s => walkPathFuel fuel rest (lookupField fields s)
        | .num _ => some none
      | _ => some none

/-! ### Canonical encoding and decoding

`encodePathToProp = memoizeFn((p) => JSON.stringify(p))` and
`decodePathToProp = (s) => JSON.parse(s)`.  `JSON.stringify` and `JSON.parse`
are host-platform builtins, modelled here on the value universe that a
`PathToProp` inhabits: an array of strings and (integer) numbers.  The
memoization cache is identity-keyed and write-once, so it never changes the
value computed; the model is the pure function.  `JSON.parse` throws on
malformed input, so the decoder returns an `Option`. -/

/-- Is `c` a decimal digit? -/
def isDigitC (c : Char) : Bool := 48 ≤ c.toNat && c.toNat ≤ 57

/-- The decimal digit character for `n < 10`. -/
def digitC (n : Nat) : Char :=
  match n with
  | 0 => '0' | 1 => '1' | 2 => '2' | 3 => '3' | 4 => '4'
  | 5 => '5' | 6 => '6' | 7 => '7' | 8 => '8' | 9 => '9'
  | _ => '0'

/-- Fuel-indexed digit printer: `fuel` only needs to dominate `n` for the
recursion (on `n / 10`) to bottom out, so `natDigits` below passes `n`
itself.  Structural recursion on the fuel keeps the definition
kernel-reducible. -/
def natDigitsGo (fuel n : Nat) : List Char :=
  match fuel with
  | 0 => []
  | fuel + 1 =>
    if n < 10 then [digitC n]
    else natDigitsGo fuel (n / 10) ++ [digitC (n % 10)]

/-- Decimal digits of a natural number, most significant first. -/
def natDigits (n : Nat) : List Char := natDigitsGo (n + 1) n

/-- The characters `JSON.stringify` produces for an integer number. -/
def intChars (n : Int) : List Char :=
  if n < 0 then '-' :: natDigits n.natAbs else natDigits n.toNat

/-- The hexadecimal digit character for `n < 16` (lower case, as
`JSON.stringify` emits in `\u00XX` escapes). -/
def hexDigitC (n : Nat) : Char :=
  if n < 10 then digitC n
  else match n with
  | 10 => 'a' | 11 => 'b' | 12 => 'c' | 13 => 'd' | 14 => 'e' | 15 => 'f'
  | _ => '0'

/-- How `JSON.stringify` escapes one character inside a string literal:
quote and backslash get a backslash escape, the named control characters get
their two-character escapes, the remaining control characters get `\u00XX`,
and every other character stands for itself. -/
def escapeChar (c : Char) : List Char :=
  if c = '"' then ['\\', '"']
  else if c = '\\' then ['\\', '\\']
  else if c = '\x08' then ['\\', 'b']
  else if c = '\x09' then ['\\', 't']
  else if c = '\x0a' then ['\\', 'n']
  else if c = '\x0c' then ['\\', 'f']
  else if c = '\x0d' then ['\\', 'r']
  else if c.toNat < 32 then
    ['\\', 'u', '0', '0', hexDigitC (c.toNat / 16), hexDigitC (c.toNat % 16)]
  else [c]

/-- The characters `JSON.stringify` produces for a string: a quoted,
escaped literal. -/
def strChars (s : String) : List Char :=
  '"' :: (s.data.flatMap escapeChar) ++ ['"']

/-- The characters `JSON.stringify` produces for one path step. -/
def stepChars (st : PathStep) : List Char :=
  match st with
  | .str s => strChars s
  | .num n => intChars n

/-- The characters `JSON.stringify` produces for a whole path: `[]` for the
empty array, otherwise the comma-separated steps between brackets. -/
def pathChars (p : PathToProp) : List Char :=
  match p with
  | [] => ['[', ']']
  | st :: rest =>
    '[' :: (stepChars st ++ rest.flatMap (fun x => ',' :: stepChars x) ++ [']'])

/-- `encodePathToProp` from addresses.ts: `JSON.stringify` of the step array
(the identity-keyed memoization wrapper caches, but never changes, this
value). -/
def encodePathToProp (p : PathToProp) : String := ⟨pathChars p⟩

/-- The value of a hexadecimal digit character, when it is one. -/
def hexVal (c : Char) : Option Nat :=
  if isDigitC c then some (c.toNat - 48)
  else if 97 ≤ c.toNat && c.toNat ≤ 102 then some (c.toNat - 87)
  else if 65 ≤ c.toNat && c.toNat ≤ 70 then some (c.toNat - 55)
  else none

/-- The character named by a single-character JSON escape, when valid. -/
def unescapeChar (c : Char) : Option Char :=
  if c = '"' then some '"'
  else if c = '\\' then some '\\'
  else if c = '/' then some '/'
  else if c = 'b' then some '\x08'
  else if c = 't' then some '\x09'
  else if c = 'n' then some '\x0a'
  else if c = 'f' then some '\x0c'
  else if c = 'r' then some '\x0d'
  else none

/-- Parse the body of a JSON string literal (everything after the opening
quote, up to and including the closing quote): the decoded characters and the
remaining input. -/
def parseStrBody (l : List Char) : Option (List Char × List Char) :=
  match l with
  | [] => none
  | c :: rest =>
    if c = '"' then some ([], rest)
    else if c = '\\' then
      match rest with
      | [] => none
      | e :: rest2 =>
        if e = 'u' then
          match rest2 with
          | h1 :: h2 :: h3 :: h4 :: rest3 =>
            match hexVal h1, hexVal h2, hexVal h3, hexVal h4 with
            | some a, some b, some c3, some d =>
              (parseStrBody rest3).map
                (fun pr => (Char.ofNat (((a * 16 + b) * 16 + c3) * 16 + d) :: pr.1, pr.2))
            | _, _, _, _ => none
          | _ => none
        else
          match unescapeChar e with
          | some d => (parseStrBody rest2).map (fun pr => (d :: pr.1, pr.2))
          | none => none
    else (parseStrBody rest).map (fun pr => (c :: pr.1, pr.2))

/-- Accumulator loop consuming leading decimal digits. -/
def parseDigits (acc : Nat) (l : List Char) : Nat × List Char :=
  match l with
  | [] => (acc, [])
  | c :: rest =>
    if isDigitC c then parseDigits (acc * 10 + (c.toNat - 48)) rest
    else (acc, c :: rest)

/-- Parse a natural number: at least one leading digit is required. -/
def parseNat (l : List Char) : Option (Nat × List Char) :=
  match l with
  | [] => none
  | c :: _ => if isDigitC c then some (parseDigits 0 l) else none

/-- Parse a JSON integer: an optional minus sign and then digits. -/
def parseInt (l : List Char) : Option (Int × List Char) :=
  match l with
  | [] => none
  | c :: rest =>
    if c = '-' then (parseNat rest).map (fun pr => (-(pr.1 : Int), pr.2))
    else (parseNat (c :: rest)).map (fun pr => ((pr.1 : Int), pr.2))

/-- Parse one array element: a string literal or an integer. -/
def parseElem (l : List Char) : Option (PathStep × List Char) :=
  match l with
  | [] => none
  | c :: rest =>
    if c = '"' then (parseStrBody rest).map (fun pr => (.str ⟨pr.1⟩, pr.2))
    else (parseInt (c :: rest)).map (fun pr => (.num pr.1, pr.2))

/-- Parse the elements of a non-empty JSON array (after the opening bracket):
element, then either a closing bracket ending the input or a comma and more
elements.  `fuel` bounds the number of elements; each element consumes at
least one character, so the input length is always enough fuel. -/
def parseElems (fuel : Nat) (l : List Char) : Option PathToProp :=
  match fuel with
  | 0 => none
  | fuel + 1 =>
    match parseElem l with
    | none => none
    | some (st, rest) =>
      match rest with
      | [] => none
      | c :: rest2 =>
        if c = ']' then (if rest2 = [] then some [st] else none)
        else if c = ',' then (parseElems fuel rest2).map (fun t => st :: t)
        else none

/-- Parse a complete JSON array of strings/integers, requiring the whole
input to be consumed (as `JSON.parse` does). -/
def parsePath (l : List Char) : Option PathToProp :=
  match l with
  | [] => none
  | c :: rest =>
    if c = '[' then
      match rest with
      | [] => none
      | c2 :: rest2 =>
        if c2 = ']' then (if rest2 = [] then some [] else none)
        else parseElems rest.length rest
    else none

/-- `decodePathToProp` from addresses.ts: `JSON.parse` of the encoded string
(`none` models a thrown `SyntaxError`). -/
def decodePathToProp (s : String) : Option PathToProp := parsePath s.data

/-- Does the input not begin with a decimal digit?  (The follower condition
under which a digit scan stops exactly at a number's end.) -/
def noDigitStart (l : List Char) : Bool :=
  match l with
  | [] => true
  | c :: _ => !isDigitC c

example : doesPathStartWith [.str "a", .str "b"] [.str "a"] = true := by decide
example : doesPathStartWith [.str "a"] [.str "a", .str "b"] = false := by decide
example : arePathsEqual [.num 1, .str "a"] [.str "1", .str "a"] = false := by decide
example :
    commonRootOfPathsToProps
      [[.str "a", .str "b", .str "c", .str "d", .str "e"],
       [.str "a", .str "b", .str "x", .str "y", .str "z"],
       [.str "a", .str "b", .str "c"]] = [.str "a", .str "b"] := by decide
example : commonRootOfPathsToProps [] = [] := by decide
example : commonRootOfPathsToProps [[.str "x"]] = [.str "x"] := by decide
example :
    getValueByPropPath [.str "a", .num 1, .str "b"]
      (.vobj [("a", .varr [.vnum 1, .vobj [("b", .vnum 2)]])]) =
      some (.vnum 2) := rfl
example :
    getValueByPropPath [.str "a", .num 5]
      (.vobj [("a", .varr [.vnum 1, .vobj [("b", .vnum 2)]])]) = none := rfl
example :
    getValueByPropPath [.str "a", .str "x"]
      (.vobj [("a", .varr [.vnum 1, .vobj [("b", .vnum 2)]])]) = none := rfl
example :
    getValueByPropPath [] (.vobj [("a", .varr [.vnum 1, .vobj [("b", .vnum 2)]])]) =
      some (.vobj [("a", .varr [.vnum 1, .vobj [("b", .vnum 2)]])]) := rfl
example : parseStrBody ['"'] = some ([], []) := rfl
example : decodePathToProp (encodePathToProp [.str "a\nb", .num (-12), .num 0]) =
    some [.str "a\nb", .num (-12), .num 0] := by decide
example : encodePathToProp [.num 1] ≠ encodePathToProp [.str "1"] := by decide

/-! ### Lemmas: prefix and equality structure -/

/-- A list is a prefix of another iff they agree at every index of the
shorter one (reading `get?`, so an index past the end of `path` is `none` and
can never match a defined step). -/
theorem prefix_iff_get_eq (pre path : PathToProp) :
    pre <+: path ↔ ∀ i, i < pre.length → pre.get? i = path.get? i := by
  induction pre generalizing path with
  | nil =>
    exact ⟨fun _ i h => absurd h (by simp), fun _ => List.nil_prefix⟩
  | cons a pre ih =>
    cases path with
    | nil =>
      constructor
      · intro h
        simp at h
      · intro h
        have h0 := h 0 (by simp)
        simp at h0
    | cons b path =>
      rw [List.cons_prefix_cons, ih]
      constructor
      · rintro ⟨rfl, h⟩ i hi
        cases i with
        | zero => rfl
        | succ i => simpa using h i (by simpa using hi)
      · intro h
        refine ⟨?_, fun i hi => ?_⟩
        · have h0 := h 0 (by simp)
          simpa using h0
        · have hs := h (i + 1) (by simpa using hi)
          simpa using hs

/-- `doesPathStartWith path pre` decides the prefix relation. -/
theorem doesPathStartWith_iff (path pre : PathToProp) :
    doesPathStartWith path pre = true ↔ pre <+: path := by
  rw [prefix_iff_get_eq]
  simp [doesPathStartWith, List.all_eq_true]

/-- `arePathsEqual` decides equality of paths. -/
theorem arePathsEqual_iff (a b : PathToProp) :
    arePathsEqual a b = true ↔ a = b := by
  unfold arePathsEqual
  by_cases h : a.length = b.length
  · rw [if_neg (by simp [h])]
    constructor
    · intro hall
      refine List.IsPrefix.eq_of_length ?_ h
      rw [prefix_iff_get_eq]
      intro i hi
      have := List.all_eq_true.mp hall i (by simpa using hi)
      simpa using this
    · rintro rfl
      simp
  · rw [if_pos (by simpa using h)]
    constructor
    · intro hfalse
      exact absurd hfalse (by simp)
    · intro e
      exact absurd (congrArg List.length e) h

/-- Extending a known common prefix by the step every path carries at the
next index. -/
theorem snoc_prefix_of (acc q : PathToProp) (c : PathStep) (h : acc <+: q)
    (hc : q.get? acc.length = some c) : acc ++ [c] <+: q := by
  rw [prefix_iff_get_eq]
  intro i hi
  rcases Nat.lt_or_ge i acc.length with hlt | hge
  · rw [List.get?_append hlt]
    exact (prefix_iff_get_eq acc q).mp h i hlt
  · have : i = acc.length := by simp at hi; omega
    subst this
    rw [List.get?_concat_length, hc]

/-! ### Lemmas: the common-root loop -/

/-- Invariant of the `commonRootOfPathsToProps` loop: given that the first
path exists and the accumulator is a common prefix so far, the loop result is
still a common prefix of every path, and the loop stopped for a reason — the
first path is exhausted at the result's length, or some path disagrees with
the first path there. -/
theorem commonRootGo_spec (pathsToProps : List PathToProp) (f : PathToProp)
    (hf : pathsToProps.get? 0 = some f) :
    ∀ fuel acc, (∀ q ∈ pathsToProps, acc <+: q) →
      f.length < acc.length + fuel →
      (∀ q ∈ pathsToProps, commonRootGo pathsToProps fuel acc <+: q) ∧
        (f.get? (commonRootGo pathsToProps fuel acc).length = none ∨
          ∃ q ∈ pathsToProps,
            q.get? (commonRootGo pathsToProps fuel acc).length ≠
              f.get? (commonRootGo pathsToProps fuel acc).length) := by
  intro fuel
  induction fuel with
  | zero =>
    intro acc hacc hlen
    simp only [commonRootGo]
    exact ⟨hacc, Or.inl (List.get?_eq_none.mpr (by omega))⟩
  | succ fuel ih =>
    intro acc hacc hlen
    simp only [commonRootGo, hf, Option.some_bind]
    split
    · rename_i hcand
      exact ⟨hacc, Or.inl hcand⟩
    · rename_i cand hcand
      split
      · rename_i hall
        refine ih (acc ++ [cand]) ?_ (by simp; omega)
        intro q hq
        have hstep := List.all_eq_true.mp hall q hq
        rw [beq_iff_eq] at hstep
        exact snoc_prefix_of acc q cand (hacc q hq) hstep
      · rename_i hall
        refine ⟨hacc, Or.inr ?_⟩
        simp only [List.all_eq_true, beq_iff_eq, not_forall] at hall
        obtain ⟨q, hq, hne⟩ := hall
        exact ⟨q, hq, by rw [hcand]; exact hne⟩

/-! ### Lemmas: value resolution -/

/-- Once the running value is `undefined`, the walk returns `undefined`
(immediately when steps remain, and as the final value otherwise). -/
theorem walkPath_undefined (p : PathToProp) : walkPath p none = none := by
  cases p <;> rfl

/-- One path step's worth of fuel per step lets the fuel-indexed walk finish. -/
theorem walkPathFuel_complete (p : PathToProp) :
    ∀ cur, walkPathFuel p.length p cur = some (walkPath p cur) := by
  induction p with
  | nil => intro cur; rfl
  | cons key rest ih =>
    intro cur
    rcases cur with _ | v
    · rfl
    · cases v <;> cases key <;> simp [walkPathFuel, walkPath, ih]

/-! ### Lemmas: digit printing and scanning -/

/-- `digitC n` is a digit character of value `n`, for `n < 10`. -/
theorem digitC_spec (n : Nat) (h : n < 10) :
    isDigitC (digitC n) = true ∧ (digitC n).toNat = 48 + n := by
  interval_cases n <;> exact ⟨by decide, by decide⟩

/-- The digit printer does not depend on the fuel, once the fuel dominates. -/
theorem natDigitsGo_congr :
    ∀ fuel₁ fuel₂ n, n < fuel₁ → n < fuel₂ →
      natDigitsGo fuel₁ n = natDigitsGo fuel₂ n := by
  intro fuel₁
  induction fuel₁ with
  | zero => omega
  | succ fuel₁ ih =>
    intro fuel₂ n h₁ h₂
    cases fuel₂ with
    | zero => omega
    | succ fuel₂ =>
      simp only [natDigitsGo]
      by_cases h : n < 10
      · rw [if_pos h, if_pos h]
      · rw [if_neg h, if_neg h, ih fuel₂ (n / 10) (by omega) (by omega)]

/-- The defining recurrence of `natDigits`. -/
theorem natDigits_unfold (n : Nat) :
    natDigits n =
      if n < 10 then [digitC n]
      else natDigits (n / 10) ++ [digitC (n % 10)] := by
  by_cases h : n < 10
  · rw [if_pos h]
    unfold natDigits
    simp only [natDigitsGo]
    rw [if_pos h]
  · rw [if_neg h]
    show natDigitsGo (n + 1) n = natDigitsGo (n / 10 + 1) (n / 10) ++ [digitC (n % 10)]
    conv_lhs => rw [show natDigitsGo (n + 1) n =
      if n < 10 then [digitC n] else natDigitsGo n (n / 10) ++ [digitC (n % 10)] from rfl]
    rw [if_neg h, natDigitsGo_congr n (n / 10 + 1) (n / 10) (by omega) (by omega)]

/-- `natDigits n` is nonempty and begins with a digit character. -/
theorem natDigits_head (n : Nat) :
    ∃ c t, natDigits n = c :: t ∧ isDigitC c = true := by
  induction n using Nat.strong_induction_on with
  | _ n ih =>
    rw [natDigits_unfold]
    by_cases h : n < 10
    · exact ⟨digitC n, [], by rw [if_pos h], (digitC_spec n h).1⟩
    · obtain ⟨c, t, he, hd⟩ := ih (n / 10) (by omega)
      exact ⟨c, t ++ [digitC (n % 10)], by rw [if_neg h, he]; rfl, hd⟩

/-- The digit scan stops immediately on input with no leading digit. -/
theorem parseDigits_stop (acc : Nat) (l : List Char)
    (h : noDigitStart l = true) : parseDigits acc l = (acc, l) := by
  cases l with
  | nil => rfl
  | cons c rest =>
    simp only [noDigitStart, Bool.not_eq_true'] at h
    simp [parseDigits, h]

/-- Scanning the printed digits of `n` shifts them into the accumulator. -/
theorem parseDigits_append :
    ∀ n acc rest, parseDigits acc (natDigits n ++ rest) =
      parseDigits (acc * 10 ^ (natDigits n).length + n) rest := by
  intro n
  induction n using Nat.strong_induction_on with
  | _ n ih =>
    intro acc rest
    rw [natDigits_unfold]
    by_cases h : n < 10
    · rw [if_pos h]
      simp only [List.cons_append, List.nil_append, parseDigits,
        (digitC_spec n h).1, if_true, (digitC_spec n h).2, List.length_cons,
        List.length_nil]
      rw [show 48 + n - 48 = n by omega, pow_one]
      rfl
    · rw [if_neg h, List.append_assoc, ih (n / 10) (by omega), List.cons_append,
        List.nil_append]
      simp only [parseDigits, (digitC_spec (n % 10) (by omega)).1, if_true,
        (digitC_spec (n % 10) (by omega)).2, List.length_append,
        List.length_cons, List.length_nil]
      congr 1
      rw [show 48 + n % 10 - 48 = n % 10 by omega, pow_succ, ← Nat.mul_assoc]
      omega

/-- Parsing the printed digits of a natural number recovers it, provided the
following input does not begin with a digit. -/
theorem parseNat_append (n : Nat) (rest : List Char)
    (h : noDigitStart rest = true) :
    parseNat (natDigits n ++ rest) = some (n, rest) := by
  obtain ⟨c, t, he, hd⟩ := natDigits_head n
  rw [he, List.cons_append]
  simp only [parseNat, hd, if_true]
  rw [← List.cons_append, ← he, parseDigits_append, parseDigits_stop _ _ h]
  simp

/-- Parsing the printed form of an integer recovers it, provided the
following input does not begin with a digit. -/
theorem parseInt_append (i : Int) (rest : List Char)
    (h : noDigitStart rest = true) :
    parseInt (intChars i ++ rest) = some (i, rest) := by
  unfold intChars
  by_cases hi : i < 0
  · rw [if_pos hi, List.cons_append]
    simp only [parseInt, parseNat_append _ _ h, eq_self_iff_true, if_true,
      Option.map_some']
    congr 2
    rw [Int.natCast_natAbs, abs_of_neg hi, neg_neg]
  · rw [if_neg hi]
    obtain ⟨c, t, he, hd⟩ := natDigits_head i.toNat
    rw [he, List.cons_append]
    have hcm : ¬(c = '-') := by
      intro e
      rw [e] at hd
      exact absurd hd (by decide)
    simp only [parseInt, if_neg hcm]
    rw [← List.cons_append, ← he, parseNat_append _ _ h]
    simp only [Option.map_some']
    congr 2
    omega

/-! ### Lemmas: string escaping and the JSON round trip -/

theorem parseStrBody_quote (l : List Char) :
    parseStrBody ('"' :: l) = some ([], l) := by
  unfold parseStrBody
  rw [if_pos rfl]

theorem parseStrBody_esc (e d : Char) (l : List Char) (hu : ¬(e = 'u'))
    (hd : unescapeChar e = some d) :
    parseStrBody ('\\' :: e :: l) =
      (parseStrBody l).map (fun pr => (d :: pr.1, pr.2)) := by
  conv_lhs => unfold parseStrBody
  rw [if_neg (by decide), if_pos rfl]
  simp only [if_neg hu, hd]

theorem parseStrBody_u (h1 h2 h3 h4 : Char) (a b c3 d : Nat) (l : List Char)
    (ha : hexVal h1 = some a) (hb : hexVal h2 = some b)
    (hc : hexVal h3 = some c3) (hd : hexVal h4 = some d) :
    parseStrBody ('\\' :: 'u' :: h1 :: h2 :: h3 :: h4 :: l) =
      (parseStrBody l).map
        (fun pr => (Char.ofNat (((a * 16 + b) * 16 + c3) * 16 + d) :: pr.1, pr.2)) := by
  conv_lhs => unfold parseStrBody
  rw [if_neg (by decide), if_pos rfl]
  simp only [eq_self_iff_true, if_true, ha, hb, hc, hd]

theorem parseStrBody_other (c : Char) (l : List Char) (h1 : ¬(c = '"'))
    (h2 : ¬(c = '\\')) :
    parseStrBody (c :: l) =
      (parseStrBody l).map (fun pr => (c :: pr.1, pr.2)) := by
  conv_lhs => unfold parseStrBody
  rw [if_neg h1, if_neg h2]

theorem hexVal_hexDigitC (m : Nat) (h : m < 16) : hexVal (hexDigitC m) = some m := by
  interval_cases m <;> decide

theorem parseStrBody_append (cs rest : List Char) :
    parseStrBody (cs.flatMap escapeChar ++ ('"' :: rest)) = some (cs, rest) := by
  induction cs with
  | nil =>
    rw [List.flatMap_nil, List.nil_append, parseStrBody_quote]
  | cons c cs ih =>
    rw [List.flatMap_cons, List.append_assoc]
    by_cases e1 : c = '"'
    · subst e1
      rw [show escapeChar '"' = ['\\', '"'] from rfl, List.cons_append,
        List.cons_append, List.nil_append,
        parseStrBody_esc '"' '"' _ (by decide) (by decide), ih, Option.map_some']
    · by_cases e2 : c = '\\'
      · subst e2
        rw [show escapeChar '\\' = ['\\', '\\'] from rfl, List.cons_append,
          List.cons_append, List.nil_append,
          parseStrBody_esc '\\' '\\' _ (by decide) (by decide), ih, Option.map_some']
      · by_cases e3 : c = '\x08'
        · subst e3
          rw [show escapeChar '\x08' = ['\\', 'b'] from rfl, List.cons_append,
            List.cons_append, List.nil_append,
            parseStrBody_esc 'b' '\x08' _ (by decide) (by decide), ih, Option.map_some']
        · by_cases e4 : c = '\x09'
          · subst e4
            rw [show escapeChar '\x09' = ['\\', 't'] from rfl, List.cons_append,
              List.cons_append, List.nil_append,
              parseStrBody_esc 't' '\x09' _ (by decide) (by decide), ih, Option.map_some']
          · by_cases e5 : c = '\x0a'
            · subst e5
              rw [show escapeChar '\x0a' = ['\\', 'n'] from rfl, List.cons_append,
                List.cons_append, List.nil_append,
                parseStrBody_esc 'n' '\x0a' _ (by decide) (by decide), ih, Option.map_some']
            · by_cases e6 : c = '\x0c'
              · subst e6
                rw [show escapeChar '\x0c' = ['\\', 'f'] from rfl, List.cons_append,
                  List.cons_append, List.nil_append,
                  parseStrBody_esc 'f' '\x0c' _ (by decide) (by decide), ih, Option.map_some']
              · by_cases e7 : c = '\x0d'
                · subst e7
                  rw [show escapeChar '\x0d' = ['\\', 'r'] from rfl, List.cons_append,
                    List.cons_append, List.nil_append,
                    parseStrBody_esc 'r' '\x0d' _ (by decide) (by decide), ih, Option.map_some']
                · by_cases e8 : c.toNat < 32
                  · have he : escapeChar c =
                        ['\\', 'u', '0', '0', hexDigitC (c.toNat / 16),
                          hexDigitC (c.toNat % 16)] := by
                      unfold escapeChar
                      rw [if_neg e1, if_neg e2, if_neg e3, if_neg e4, if_neg e5,
                        if_neg e6, if_neg e7, if_pos e8]
                    rw [he, List.cons_append, List.cons_append, List.cons_append,
                      List.cons_append, List.cons_append, List.cons_append,
                      List.nil_append,
                      parseStrBody_u '0' '0' (hexDigitC (c.toNat / 16))
                        (hexDigitC (c.toNat % 16)) 0 0 (c.toNat / 16) (c.toNat % 16) _
                        (by decide) (by decide)
                        (hexVal_hexDigitC _ (by omega)) (hexVal_hexDigitC _ (by omega)),
                      ih, Option.map_some']
                    congr 3
                    rw [show ((0 * 16 + 0) * 16 + c.toNat / 16) * 16 + c.toNat % 16 =
                      c.toNat by omega, Char.ofNat_toNat]
                  · have he : escapeChar c = [c] := by
                      unfold escapeChar
                      rw [if_neg e1, if_neg e2, if_neg e3, if_neg e4, if_neg e5,
                        if_neg e6, if_neg e7, if_neg e8]
                    rw [he, List.cons_append, List.nil_append,
                      parseStrBody_other c _ e1 e2, ih, Option.map_some']

theorem isDigitC_ne (c : Char) (h : isDigitC c = true) :
    ¬(c = '"') ∧ ¬(c = ']') ∧ ¬(c = ',') ∧ ¬(c = '-') := by
  refine ⟨?_, ?_, ?_, ?_⟩ <;> (rintro rfl; revert h; decide)

theorem intChars_head (n : Int) :
    ∃ c t, intChars n = c :: t ∧ (c = '-' ∨ isDigitC c = true) := by
  unfold intChars
  by_cases hn : n < 0
  · rw [if_pos hn]
    exact ⟨'-', _, rfl, Or.inl rfl⟩
  · rw [if_neg hn]
    obtain ⟨c, t, he, hd⟩ := natDigits_head n.toNat
    exact ⟨c, t, he, Or.inr hd⟩

theorem stepChars_head (st : PathStep) :
    ∃ c t, stepChars st = c :: t ∧ (c = '"' ∨ c = '-' ∨ isDigitC c = true) := by
  cases st with
  | str s => exact ⟨'"', _, rfl, Or.inl rfl⟩
  | num n =>
    obtain ⟨c, t, he, hd⟩ := intChars_head n
    exact ⟨c, t, he, Or.inr hd⟩

theorem parseElem_append (st : PathStep) (rest : List Char)
    (h : noDigitStart rest = true) :
    parseElem (stepChars st ++ rest) = some (st, rest) := by
  cases st with
  | str s =>
    show parseElem (strChars s ++ rest) = _
    rw [show strChars s = '"' :: (s.data.flatMap escapeChar ++ ['"']) from rfl,
      List.cons_append, List.append_assoc, List.singleton_append]
    simp only [parseElem, if_pos rfl]
    rw [parseStrBody_append]
    simp
  | num n =>
    obtain ⟨c, t, hct, hc⟩ := intChars_head n
    have hq : ¬(c = '"') := by
      rcases hc with rfl | hd
      · decide
      · exact (isDigitC_ne c hd).1
    rw [show stepChars (.num n) = intChars n from rfl, hct, List.cons_append]
    simp only [parseElem, if_neg hq]
    rw [← List.cons_append, ← hct, parseInt_append n rest h]
    simp

theorem sepChars_length_ge (l : PathToProp) :
    l.length ≤ (l.flatMap (fun x => ',' :: stepChars x)).length := by
  induction l with
  | nil => simp
  | cons st l ih =>
    simp only [List.flatMap_cons, List.length_append, List.length_cons]
    omega

theorem parseElems_append (l : PathToProp) :
    ∀ (st : PathStep) (fuel : Nat), l.length < fuel →
      parseElems fuel
        (stepChars st ++ (l.flatMap (fun x => ',' :: stepChars x) ++ [']'])) =
        some (st :: l) := by
  induction l with
  | nil =>
    intro st fuel hf
    cases fuel with
    | zero => omega
    | succ fuel =>
      rw [List.flatMap_nil, List.nil_append]
      conv_lhs => unfold parseElems
      rw [parseElem_append st _ (by rfl)]
      simp
  | cons st2 l ih =>
    intro st fuel hf
    cases fuel with
    | zero => omega
    | succ fuel =>
      have harr : stepChars st ++
          ((st2 :: l).flatMap (fun x => ',' :: stepChars x) ++ [']']) =
          stepChars st ++
            (',' :: (stepChars st2 ++
              (l.flatMap (fun x => ',' :: stepChars x) ++ [']']))) := by
        simp
      rw [harr]
      conv_lhs => unfold parseElems
      rw [parseElem_append st _ (by rfl)]
      have hih := ih st2 fuel (by simpa using hf)
      simp [hih]

theorem parsePath_append (p : PathToProp) : parsePath (pathChars p) = some p := by
  cases p with
  | nil => rfl
  | cons st l =>
    have hbody : pathChars (st :: l) =
        '[' :: (stepChars st ++
          (l.flatMap (fun x => ',' :: stepChars x) ++ [']'])) := by
      show '[' :: (stepChars st ++ l.flatMap (fun x => ',' :: stepChars x) ++ [']']) = _
      simp
    rw [hbody]
    obtain ⟨c, t, hct, hc⟩ := stepChars_head st
    have hcne : ¬(c = ']') := by
      rcases hc with rfl | rfl | hd
      · decide
      · decide
      · exact (isDigitC_ne c hd).2.1
    have hcons : stepChars st ++
        (l.flatMap (fun x => ',' :: stepChars x) ++ [']']) =
        c :: (t ++ (l.flatMap (fun x => ',' :: stepChars x) ++ [']'])) := by
      rw [hct, List.cons_append]
    simp only [parsePath, if_pos rfl, hcons, if_neg hcne]
    rw [← List.cons_append, ← hct]
    refine parseElems_append l st _ ?_
    have h1 := sepChars_length_ge l
    have h2 : (stepChars st).length = t.length + 1 := by rw [hct]; rfl
    simp only [List.length_append, List.length_cons]
    omega

theorem decode_encode_eq (p : PathToProp) :
    decodePathToProp (encodePathToProp p) = some p := by
  show parsePath (pathChars p) = some p
  exact parsePath_append p

theorem encode_inj (p q : PathToProp)
    (h : encodePathToProp p = encodePathToProp q) : p = q := by
  have hp := decode_encode_eq p
  rw [h, decode_encode_eq q] at hp
  exact (Option.some.inj hp).symm

/-! ### The claims -/

/-- C1: for every finite path `p` whose steps are strings or (finite,
JSON-representable, here integer) numbers,
`decodePathToProp(encodePathToProp(p))` is element-wise equal to `p`. -/
theorem claim_C1_encode_decode_roundtrip :
    ∀ p : PathToProp, decodePathToProp (encodePathToProp p) = some p :=
  decode_encode_eq

/-- C7: for every `rootVal` — including null, primitives, and other
non-object values — `getValueByPropPath([], rootVal)` returns `rootVal`
itself unchanged; the null/non-object check fires only when a step remains. -/
theorem claim_C7_empty_path_returns_root :
    ∀ rootVal : SerializableValue, getValueByPropPath [] rootVal = some rootVal :=
  fun _ => rfl

/-- C8: `getValueByPropPath` is total: the walk of a path of length `n`
finishes within `n` loop iterations (the fuel-indexed walk never runs out
when given one unit per step), and every outcome is either a value or the
`undefined` result `none` — there is no exception channel. -/
theorem claim_C8_total_no_exceptions :
    (∀ (p : PathToProp) (rootVal : SerializableValue),
        walkPathFuel p.length p (some rootVal) =
          some (getValueByPropPath p rootVal)) ∧
    (∀ (p : PathToProp) (rootVal : SerializableValue),
        getValueByPropPath p rootVal = none ∨
          ∃ v, getValueByPropPath p rootVal = some v) := by
  constructor
  · intro p rootVal
    exact walkPathFuel_complete p (some rootVal)
  · intro p rootVal
    cases h : getValueByPropPath p rootVal with
    | none => exact Or.inl rfl
    | some v => exact Or.inr ⟨v, rfl⟩

/-- C9: mutual prefixhood coincides exactly with path equality. -/
theorem claim_C9_mutual_prefixhood_is_equality :
    ∀ a b : PathToProp, arePathsEqual a b = true ↔
      (doesPathStartWith a b = true ∧ doesPathStartWith b a = true) := by
  intro a b
  rw [arePathsEqual_iff, doesPathStartWith_iff, doesPathStartWith_iff]
  constructor
  · rintro rfl
    exact ⟨List.prefix_refl _, List.prefix_refl _⟩
  · rintro ⟨h1, h2⟩
    exact List.IsPrefix.eq_of_length h2
      (Nat.le_antisymm h2.length_le h1.length_le)

/-- C10: the prefix relation computed by `doesPathStartWith` is transitive. -/
theorem claim_C10_prefix_transitive :
    ∀ p a b : PathToProp, doesPathStartWith p a = true →
      doesPathStartWith a b = true → doesPathStartWith p b = true := by
  intro p a b h1 h2
  rw [doesPathStartWith_iff] at h1 h2 ⊢
  exact List.IsPrefix.trans h2 h1

/-- C10, witnessed at a concrete instance. -/
theorem claim_C10_witness :
    doesPathStartWith [PathStep.str "a", PathStep.str "b", PathStep.str "c"]
      [PathStep.str "a"] = true :=
  claim_C10_prefix_transitive _ [PathStep.str "a", PathStep.str "b"] _
    (by decide) (by decide)

/-- C4: `doesPathStartWith(path, prefix)` is true iff every step of the
prefix strictly equals the step of `path` at the same index; consequently the
empty prefix is a prefix of every path, every path is a prefix of itself, and
a prefix longer than the path always fails (a true prefix relationship needs
`path.length >= prefix.length`). -/
theorem claim_C4_doesPathStartWith_law :
    (∀ path pre : PathToProp, doesPathStartWith path pre = true ↔
        ∀ i, i < pre.length → pre.get? i = path.get? i) ∧
    (∀ p : PathToProp, doesPathStartWith p [] = true) ∧
    (∀ p : PathToProp, doesPathStartWith p p = true) ∧
    (∀ path pre : PathToProp, path.length < pre.length →
        doesPathStartWith path pre = false) := by
  refine ⟨?_, ?_, ?_, ?_⟩
  · intro path pre
    exact (doesPathStartWith_iff path pre).trans (prefix_iff_get_eq pre path)
  · intro p
    exact (doesPathStartWith_iff p []).mpr List.nil_prefix
  · intro p
    exact (doesPathStartWith_iff p p).mpr (List.prefix_refl p)
  · intro path pre hlen
    cases hb : doesPathStartWith path pre with
    | false => rfl
    | true =>
      have := ((doesPathStartWith_iff path pre).mp hb).length_le
      omega

/-- C5: `arePathsEqual(a, b)` is true iff the paths have equal length and
strictly equal steps at every index (a string step never equals a number
step, e.g. `[1,'a']` vs `['1','a']`); the relation is reflexive and
symmetric. -/
theorem claim_C5_arePathsEqual_law :
    (∀ a b : PathToProp, arePathsEqual a b = true ↔
        (a.length = b.length ∧ ∀ i, i < a.length → a.get? i = b.get? i)) ∧
    (arePathsEqual [.num 1, .str "a"] [.str "1", .str "a"] = false) ∧
    (∀ a : PathToProp, arePathsEqual a a = true) ∧
    (∀ a b : PathToProp, arePathsEqual a b = arePathsEqual b a) := by
  refine ⟨?_, by decide, ?_, ?_⟩
  · intro a b
    rw [arePathsEqual_iff]
    constructor
    · rintro rfl
      exact ⟨rfl, fun _ _ => rfl⟩
    · rintro ⟨hl, hi⟩
      exact List.IsPrefix.eq_of_length ((prefix_iff_get_eq a b).mpr hi) hl
  · intro a
    exact (arePathsEqual_iff a a).mpr rfl
  · intro a b
    by_cases h : a = b
    · rw [h]
    · have ha : arePathsEqual a b = false := by
        rw [← Bool.not_eq_true, arePathsEqual_iff]
        exact h
      have hb : arePathsEqual b a = false := by
        rw [← Bool.not_eq_true, arePathsEqual_iff]
        exact fun e => h e.symm
      rw [ha, hb]

/-- C6: `encodePathToProp` is injective over paths of string/integer steps:
equal encodings force element-wise equal paths, and in particular the string
step `"1"` and the number step `1` receive distinct encodings.  (Determinism
is inherent: the encoder is a pure function of the path, and its
identity-keyed memoization cache only ever stores that same value.) -/
theorem claim_C6_encode_injective :
    (∀ p q : PathToProp, encodePathToProp p = encodePathToProp q → p = q) ∧
    encodePathToProp [.num 1] ≠ encodePathToProp [.str "1"] :=
  ⟨encode_inj, by decide⟩

/-- C2: `getValueByPropPath` walks the steps left-to-right obeying the
per-step branching rules: with a step remaining, a current value that is null
or not an object/array yields `undefined` regardless of the remaining steps;
an array rejects non-number steps and indexes on number steps (out-of-range
indices giving `undefined` at that level); a non-array object rejects number
steps and reads the named field on string steps (a missing key giving
`undefined` at that level). -/
theorem claim_C2_branching_rules :
    (∀ (key : PathStep) (p : PathToProp),
        getValueByPropPath (key :: p) .vnull = none) ∧
    (∀ (key : PathStep) (p : PathToProp) (b : Bool),
        getValueByPropPath (key :: p) (.vbool b) = none) ∧
    (∀ (key : PathStep) (p : PathToProp) (n : Int),
        getValueByPropPath (key :: p) (.vnum n) = none) ∧
    (∀ (key : PathStep) (p : PathToProp) (s : String),
        getValueByPropPath (key :: p) (.vstr s) = none) ∧
    (∀ (s : String) (p : PathToProp) (items : List SerializableValue),
        getValueByPropPath (.str s :: p) (.varr items) = none) ∧
    (∀ (n : Int) (p : PathToProp) (items : List SerializableValue),
        getValueByPropPath (.num n :: p) (.varr items) =
          (arrIndex items n).bind (fun v => getValueByPropPath p v)) ∧
    (∀ (n : Int) (items : List SerializableValue),
        (n < 0 ∨ (items.length : Int) ≤ n) → arrIndex items n = none) ∧
    (∀ (n : Int) (p : PathToProp) (fields : List (String × SerializableValue)),
        getValueByPropPath (.num n :: p) (.vobj fields) = none) ∧
    (∀ (s : String) (p : PathToProp) (fields : List (String × SerializableValue)),
        getValueByPropPath (.str s :: p) (.vobj fields) =
          (lookupField fields s).bind (fun v => getValueByPropPath p v)) ∧
    (∀ (s : String) (fields : List (String × SerializableValue)),
        (∀ kv ∈ fields, ¬(kv.1 = s)) → lookupField fields s = none) := by
  refine ⟨?_, ?_, ?_, ?_, ?_, ?_, ?_, ?_, ?_, ?_⟩
  · intro key p
    cases key <;> rfl
  · intro key p b
    cases key <;> rfl
  · intro key p n
    cases key <;> rfl
  · intro key p s
    cases key <;> rfl
  · intro s p items
    rfl
  · intro n p items
    show walkPath p (arrIndex items n) = _
    cases h : arrIndex items n with
    | none => rw [walkPath_undefined]; rfl
    | some v => rfl
  · intro n items h
    unfold arrIndex
    by_cases hn : n < 0
    · rw [if_pos hn]
    · rw [if_neg hn]
      exact List.get?_eq_none.mpr (by omega)
  · intro n p fields
    rfl
  · intro s p fields
    show walkPath p (lookupField fields s) = _
    cases h : lookupField fields s with
    | none => rw [walkPath_undefined]; rfl
    | some v => rfl
  · intro s fields h
    induction fields with
    | nil => rfl
    | cons kv rest ih =>
      obtain ⟨k, v⟩ := kv
      show (if k = s then some v else lookupField rest s) = none
      rw [if_neg (h (k, v) (by simp))]
      exact ih (fun kv hkv => h kv (by simp [hkv]))

/-- C3: `commonRootOfPathsToProps(paths)` returns the longest common prefix
(under the strict, type-sensitive step equality of `arePathsEqual`) of every
path in the collection: the empty collection yields the empty sequence, a
single path comes back element-wise equal, the result is a prefix of every
path in the collection, and no common prefix is longer — in particular the
first-path scan bound does not change the result even when the first path is
longer than another path. -/
theorem claim_C3_commonRoot_longest :
    (commonRootOfPathsToProps [] = []) ∧
    (∀ p : PathToProp,
        arePathsEqual (commonRootOfPathsToProps [p]) p = true) ∧
    (∀ (paths : List PathToProp) (p : PathToProp), p ∈ paths →
        doesPathStartWith p (commonRootOfPathsToProps paths) = true) ∧
    (∀ (paths : List PathToProp) (q : PathToProp), paths ≠ [] →
        (∀ p ∈ paths, doesPathStartWith p q = true) →
        q.length ≤ (commonRootOfPathsToProps paths).length) := by
  refine ⟨rfl, ?_, ?_, ?_⟩
  · intro p
    unfold commonRootOfPathsToProps
    obtain ⟨h1, h2⟩ := commonRootGo_spec [p] p rfl (([p].headD []).length + 1) []
      (fun q _ => List.nil_prefix) (by simp)
    have hr := h1 p (by simp)
    rw [arePathsEqual_iff]
    rcases h2 with hn | ⟨q, hq, hne⟩
    · refine List.IsPrefix.eq_of_length hr ?_
      have hle := hr.length_le
      have := List.get?_eq_none.mp hn
      omega
    · simp only [List.mem_singleton] at hq
      subst hq
      exact absurd rfl hne
  · intro paths p hp
    cases paths with
    | nil => simp at hp
    | cons f rest =>
      unfold commonRootOfPathsToProps
      obtain ⟨h1, _⟩ := commonRootGo_spec (f :: rest) f rfl
        (((f :: rest).headD []).length + 1) [] (fun q _ => List.nil_prefix)
        (by simp)
      rw [doesPathStartWith_iff]
      exact h1 p hp
  · intro paths q hne hq
    cases paths with
    | nil => exact absurd rfl hne
    | cons f rest =>
      unfold commonRootOfPathsToProps
      obtain ⟨h1, h2⟩ := commonRootGo_spec (f :: rest) f rfl
        (((f :: rest).headD []).length + 1) [] (fun q _ => List.nil_prefix)
        (by simp)
      set r := commonRootGo (f :: rest) (((f :: rest).headD []).length + 1) []
        with hrdef
      by_contra hlt
      push_neg at hlt
      obtain ⟨x, hx⟩ : ∃ x, q.get? r.length = some x := by
        cases hxx : q.get? r.length with
        | none =>
          have := List.get?_eq_none.mp hxx
          omega
        | some x => exact ⟨x, rfl⟩
      have hq_all : ∀ p ∈ (f :: rest), p.get? r.length = some x := by
        intro p hp
        have hqp := (doesPathStartWith_iff p q).mp (hq p hp)
        have := (prefix_iff_get_eq q p).mp hqp r.length hlt
        rw [← this, hx]
      rcases h2 with hn | ⟨p2, hp2, hne2⟩
      · rw [hq_all f (by simp)] at hn
        exact Option.noConfusion hn
      · rw [hq_all p2 hp2, hq_all f (by simp)] at hne2
        exact absurd rfl hne2
